import Mathlib

/-!
Shallow embedding of `src/halton.py` (class `halton`): the digit-reversal
evaluator `evaluateone`, the prime generator `gen_primes` /
`run_gen_primes`, the constructor argument handling, and the table builder
`evaluate`, together with proofs of the specification claims.

Conventions used throughout:
* Python integers are `Int` (counts are `Nat` where Python only ever sees
  non-negative values), Python floats are exact rationals `ℚ`.
* Python `i % b` on integers takes the sign of the divisor and
  `math.floor(i / b)` is floor division, so they are embedded as
  `Int.fmod` and `Int.fdiv`.
* A Python function that can `raise ValueError(msg)` returns
  `Except String _`, the raised message in the `.error` case.
* The `while` loop of `evaluateone` need not terminate (`b == 1` loops
  forever in the source), so the loop takes an iteration bound (`fuel`);
  `none` means the bound was reached with the loop still running.
-/

namespace Halton

/-! ### Definitions: the digit-reversal evaluator -/

/-- The `while` loop of `halton.evaluateone`:
`while i > 0: f = f/b; r = r + f*(i % b); i = math.floor(i/b)`,
with an explicit bound `fuel` on the number of iterations. -/
def evalLoop (b : Int) : Nat → Int → ℚ → ℚ → Option ℚ
  | 0, i, _, r => if 0 < i then none else some r
  | fuel + 1, i, f, r =>
    if 0 < i then
      evalLoop b fuel (i.fdiv b) (f / (b : ℚ)) (r + f / (b : ℚ) * ((i.fmod b : Int) : ℚ))
    else some r

/-- `halton.evaluateone(i, b)` with an explicit iteration bound: the
`if b == 0: raise ValueError(...)` guard, then the digit-reversal loop
started from `f = 1`, `r = 0`. -/
def evaluateoneFuel (fuel : Nat) (i b : Int) : Except String (Option ℚ) :=
  if b = 0 then Except.error "Parameter b is 0. b must be greater than 0."
  else Except.ok (evalLoop b fuel i 1 0)

/-- `halton.evaluateone(i, b)`.  The bound `i.toNat + 1` is enough
iterations in every case in which the source loop terminates at all
(`evalLoop_term` and `evalLoop_term_neg` below), so `.ok (some r)` means
the source returns `r`, `.ok none` means the source loop runs forever, and
`.error` means the source raises. -/
def evaluateone (i b : Int) : Except String (Option ℚ) :=
  evaluateoneFuel (i.toNat + 1) i b

/-- The value of a successful `evaluateone` call, `0` otherwise
(proof device used to describe the table built by `evaluate`). -/
def evalVal (i b : Int) : ℚ :=
  match evaluateone i b with
  | Except.ok (some r) => r
  | _ => 0

/-! ### Definitions: the prime generator `gen_primes` / `run_gen_primes`

The Python dict `D` (mapping composites to the list of primes witnessing
their compositeness) is embedded as a function `Nat → List Nat`, the empty
list standing for an absent key: the source never leaves an empty list
under a present key (`D[q*q] = [q]` stores a one-element list and
`D.setdefault(p+q, []).append(p)` appends right after creating), so the
Python test `q not in D` is exactly `D q = []`. -/

/-- `D[k] = v`: assign, overwriting any previous entry. -/
def dictSet (D : Nat → List Nat) (k : Nat) (v : List Nat) : Nat → List Nat :=
  fun m => if m = k then v else D m

/-- `D.setdefault(k, []).append(p)`. -/
def dictAppend (D : Nat → List Nat) (k : Nat) (p : Nat) : Nat → List Nat :=
  fun m => if m = k then D m ++ [p] else D m

/-- `del D[k]`. -/
def dictDel (D : Nat → List Nat) (k : Nat) : Nat → List Nat :=
  fun m => if m = k then [] else D m

/-- One pass of the `while True` body of `halton.gen_primes` at the running
integer `q`: if `q` is not in `D` it is a new prime — yield it and mark its
square; otherwise advance each witness `p` of the composite `q` to `p + q`
and drop the entry for `q`. -/
def sieveStep (D : Nat → List Nat) (q : Nat) : Option Nat × (Nat → List Nat) :=
  if D q = [] then
    (some q, dictSet D (q * q) [q])
  else
    (none, dictDel ((D q).foldl (fun E p => dictAppend E (p + q) p) D) q)

/-- The values yielded by `halton.gen_primes` while the running integer `q`
makes `steps` passes of the loop body starting from state `D`. -/
def sieveYields : Nat → (Nat → List Nat) → Nat → List Nat
  | 0, _, _ => []
  | steps + 1, D, q =>
    match sieveStep D q with
    | (some out, D') => out :: sieveYields steps D' (q + 1)
    | (none, D') => sieveYields steps D' (q + 1)

/-- The yields of a fresh `halton.gen_primes()` generator, which starts
from an empty dict at `q = 2`, over the first `steps` loop passes. -/
def gen_primes (steps : Nat) : List Nat := sieveYields steps (fun _ => []) 2

/-- `halton.run_gen_primes(maxprime)`: draw `maxprime` values from a fresh
`gen_primes()` generator into the Python set `x`, convert to an array and
sort it.  Since the generator only ever yields distinct values, drawing
`maxprime` of them is `List.take maxprime` of the yield stream
(`2 ^ (maxprime + 1)` loop passes produce at least `maxprime` yields,
proved below), the set is `List.dedup`, and `ndarray.sort` is
`List.mergeSort`. -/
def run_gen_primes (maxprime : Nat) : List Nat :=
  (((gen_primes (2 ^ (maxprime + 1))).take maxprime).dedup).mergeSort
    (fun a b => decide (a ≤ b))

/-- The least multiple of `p` that is `≥ q` (proof device for the sieve
invariant). -/
def nextMul (p q : Nat) : Nat := p * ((q + p - 1) / p)

/-- The dict key at which the sieve keeps the prime `p` when the running
integer is about to be `q`: `p` sits at `p * p` until the running integer
reaches `p * p`, and afterwards at the least multiple of `p` that is still
ahead of the running integer (proof device for the sieve invariant). -/
def sieveKey (p q : Nat) : Nat := max (p * p) (nextMul p q)

/-- Invariant of the sieve state when the running integer is about to be
`q`: every dict entry list is duplicate-free, and a number `p` sits in the
list at key `m` exactly when `p` is a prime below `q` kept at `m`. -/
def sieveInv (q : Nat) (D : Nat → List Nat) : Prop :=
  (∀ m, (D m).Nodup) ∧
  ∀ p m, p ∈ D m ↔ (p.Prime ∧ p < q ∧ m = sieveKey p q)

/-! ### Definitions: the class constructor and the table builder -/

/-- The `halton` object: the arrays `self.indices` and `self.bases`. -/
structure HaltonSeq where
  indices : List Int
  bases : List Int

/-- `halton.__init__(num, dim, indices, bases)`: argument validation and
defaulting.  `None` is `Option.none`; a missing `num`/`dim` is never
dereferenced, so the `Option.getD` defaults are inert. -/
def init (num dim : Option Nat) (indices bases : Option (List Int)) :
    Except String HaltonSeq :=
  if (num ≠ none ∨ dim ≠ none) ∧ (indices ≠ none ∨ bases ≠ none) then
    Except.error
      "Parameters num and dim or indices and bases cannot be supplied simultaneously."
  else if num = none ∧ dim = none ∧ indices = none ∧ bases = none then
    Except.error "Parameters num and dim or indices and bases must be supplied."
  else if indices ≠ none ∧ bases ≠ none then
    Except.ok ⟨indices.getD [], bases.getD []⟩
  else if num ≠ none ∧ dim ≠ none then
    Except.ok ⟨(List.range (num.getD 0)).map Int.ofNat,
               (run_gen_primes (dim.getD 0)).map Int.ofNat⟩
  else
    Except.error
      "Unknown input error. Parameters num and dim or indices and bases must be supplied."

/-- Sequencing of table cells: an error raised by `evaluateone` propagates
out of `evaluate`, and a diverging call never reaches the next cell. -/
def bindEval (x : Except String (Option α)) (k : α → Except String (Option β)) :
    Except String (Option β) :=
  match x with
  | Except.error e => Except.error e
  | Except.ok none => Except.ok none
  | Except.ok (some a) => k a

/-- `result[i, j] = v` on the embedded `numpy` matrix (a row list of
column lists). -/
def setCell (t : List (List ℚ)) (i j : Nat) (v : ℚ) : List (List ℚ) :=
  t.set i ((t.getD i []).set j v)

/-- The inner `for (j, base) in enumerate(self.bases)` loop of
`halton.evaluate`, filling row `i` for the index value `iv`. -/
def fillRow (iv : Int) (i : Nat) :
    List (Nat × Int) → List (List ℚ) → Except String (Option (List (List ℚ)))
  | [], acc => Except.ok (some acc)
  | (j, bv) :: rest, acc =>
    bindEval (evaluateone iv bv) (fun r => fillRow iv i rest (setCell acc i j r))

/-- The outer `for (i, idx) in enumerate(self.indices)` loop of
`halton.evaluate`. -/
def fillTable (bs : List (Nat × Int)) :
    List (Nat × Int) → List (List ℚ) → Except String (Option (List (List ℚ)))
  | [], acc => Except.ok (some acc)
  | (i, iv) :: rest, acc =>
    bindEval (fillRow iv i bs acc) (fun acc' => fillTable bs rest acc')

/-- `halton.evaluate()`: allocate `result = np.zeros([m, n])`, then fill
every cell with `evaluateone` by the nested `enumerate` loops. -/
def evaluate (h : HaltonSeq) : Except String (Option (List (List ℚ))) :=
  fillTable h.bases.enum h.indices.enum
    (List.replicate h.indices.length (List.replicate h.bases.length 0))

/-- The pure value of the inner cell loop (proof device): what the
accumulated matrix becomes when every call succeeds. -/
def fillRowF (iv : Int) (i : Nat) (bs : List (Nat × Int)) (acc : List (List ℚ)) :
    List (List ℚ) :=
  bs.foldl (fun a pr => setCell a i pr.1 (evalVal iv pr.2)) acc

/-- The pure value of the two nested loops (proof device). -/
def fillTableF (bs : List (Nat × Int)) (idxs : List (Nat × Int))
    (acc : List (List ℚ)) : List (List ℚ) :=
  idxs.foldl (fun a pr => fillRowF pr.2 pr.1 bs a) acc

/-- The effect of the inner cell loop on one row (proof device). -/
def rowSetF (iv : Int) (bs : List (Nat × Int)) (row : List ℚ) : List ℚ :=
  bs.foldl (fun r pr => r.set pr.1 (evalVal iv pr.2)) row

/-! ### Generic facts about the evaluator loop -/

/-- When the index is not positive the loop body is never entered. -/
theorem evalLoop_of_nonpos (b : Int) (fuel : Nat) (i : Int) (f r : ℚ)
    (hi : ¬0 < i) : evalLoop b fuel i f r = some r := by
  cases fuel <;> simp [evalLoop, hi]

/-- More fuel never changes a result that was already reached. -/
theorem evalLoop_mono (b : Int) :
    ∀ (fuel fuel' : Nat) (i : Int) (f r v : ℚ), fuel ≤ fuel' →
      evalLoop b fuel i f r = some v → evalLoop b fuel' i f r = some v := by
  intro fuel
  induction fuel with
  | zero =>
    intro fuel' i f r v _ h
    by_cases hi : 0 < i
    · simp [evalLoop, hi] at h
    · rw [evalLoop_of_nonpos b _ i f r hi] at h ⊢
      exact h
  | succ n ih =>
    intro fuel' i f r v hle h
    by_cases hi : 0 < i
    · obtain ⟨m, rfl⟩ : ∃ m, fuel' = m + 1 :=
        ⟨fuel' - 1, by omega⟩
      rw [evalLoop, if_pos hi] at h ⊢
      exact ih m _ _ _ _ (by omega) h
    · rw [evalLoop_of_nonpos b _ i f r hi] at h ⊢
      exact h

/-- With base `b ≥ 2`, a positive index strictly shrinks each iteration:
`0 ≤ i.fdiv b < i`. -/
theorem fdiv_lt_of_pos {i b : Int} (hi : 0 < i) (hb : 2 ≤ b) :
    0 ≤ i.fdiv b ∧ i.fdiv b < i := by
  have hb0 : (0 : Int) ≤ b := by omega
  rw [Int.fdiv_eq_ediv _ hb0]
  have hd : 0 ≤ i / b := Int.ediv_nonneg (by omega) hb0
  refine ⟨hd, ?_⟩
  have hmod : i % b < b := Int.emod_lt_of_pos i (by omega)
  have hmod0 : 0 ≤ i % b := Int.emod_nonneg i (by omega)
  have heq : b * (i / b) + i % b = i := Int.ediv_add_emod i b
  have h2d : 2 * (i / b) ≤ b * (i / b) :=
    Int.mul_le_mul_of_nonneg_right hb hd
  omega

/-- With base `b ≥ 2` the loop terminates within `i.toNat` iterations. -/
theorem evalLoop_term (b : Int) (hb : 2 ≤ b) :
    ∀ (fuel : Nat) (i : Int) (f r : ℚ), i.toNat ≤ fuel →
      ∃ v, evalLoop b fuel i f r = some v := by
  intro fuel
  induction fuel with
  | zero =>
    intro i f r hfuel
    have hi : ¬0 < i := by omega
    exact ⟨r, evalLoop_of_nonpos b 0 i f r hi⟩
  | succ n ih =>
    intro i f r hfuel
    by_cases hi : 0 < i
    · rw [evalLoop, if_pos hi]
      obtain ⟨hd0, hdlt⟩ := fdiv_lt_of_pos hi hb
      exact ih _ _ _ (by omega)
    · exact ⟨r, evalLoop_of_nonpos b _ i f r hi⟩

/-- With base `b < 0` the loop terminates after at most one iteration. -/
theorem evalLoop_term_neg (b : Int) (hb : b < 0) (fuel : Nat) (i : Int)
    (f r : ℚ) (hfuel : 1 ≤ fuel) :
    ∃ v, evalLoop b fuel i f r = some v := by
  by_cases hi : 0 < i
  · obtain ⟨m, rfl⟩ : ∃ m, fuel = m + 1 := ⟨fuel - 1, by omega⟩
    rw [evalLoop, if_pos hi]
    have : ¬0 < i.fdiv b := by
      have := Int.fdiv_nonpos (a := i) (b := b) (by omega) (by omega)
      omega
    exact ⟨_, evalLoop_of_nonpos b m _ _ _ this⟩
  · exact ⟨r, evalLoop_of_nonpos b fuel i f r hi⟩

/-- Range invariant: with `b ≥ 2`, a non-negative index, a positive
fraction `f` and the accumulator `r`, the loop result lies in
`[r, r + f)`. -/
theorem evalLoop_range (b : Int) (hb : 2 ≤ b) :
    ∀ (fuel : Nat) (i : Int) (f r v : ℚ), 0 ≤ i → 0 < f →
      evalLoop b fuel i f r = some v → r ≤ v ∧ v < r + f := by
  intro fuel
  induction fuel with
  | zero =>
    intro i f r v hi hf h
    by_cases hip : 0 < i
    · simp [evalLoop, hip] at h
    · rw [evalLoop_of_nonpos b 0 i f r hip] at h
      cases h
      constructor
      · exact le_refl r
      · linarith
  | succ n ih =>
    intro i f r v hi hf h
    by_cases hip : 0 < i
    · rw [evalLoop, if_pos hip] at h
      have hb0 : (0 : Int) < b := by omega
      have hbq : (0 : ℚ) < (b : ℚ) := by exact_mod_cast hb0
      have hf' : 0 < f / (b : ℚ) := div_pos hf hbq
      have hm0 : (0 : Int) ≤ i.fmod b := by
        rw [Int.fmod_eq_emod _ (le_of_lt hb0)]
        exact Int.emod_nonneg i (by omega)
      have hmlt : i.fmod b < b := by
        rw [Int.fmod_eq_emod _ (le_of_lt hb0)]
        exact Int.emod_lt_of_pos i hb0
      have hmq0 : (0 : ℚ) ≤ ((i.fmod b : Int) : ℚ) := by exact_mod_cast hm0
      have hr' : r ≤ r + f / (b : ℚ) * ((i.fmod b : Int) : ℚ) := by
        have := mul_nonneg (le_of_lt hf') hmq0
        linarith
      obtain ⟨h1, h2⟩ := ih _ _ _ _ (Int.fdiv_nonneg hi (le_of_lt hb0)) hf' h
      refine ⟨le_trans hr' h1, lt_of_lt_of_le h2 ?_⟩
      have hmq : ((i.fmod b : Int) : ℚ) + 1 ≤ (b : ℚ) := by
        have : i.fmod b + 1 ≤ b := hmlt
        exact_mod_cast this
      have hle : f / (b : ℚ) * (((i.fmod b : Int) : ℚ) + 1) ≤ f / (b : ℚ) * (b : ℚ) :=
        mul_le_mul_of_nonneg_left hmq (le_of_lt hf')
      have hdb : f / (b : ℚ) * (b : ℚ) = f := div_mul_cancel₀ f (ne_of_gt hbq)
      nlinarith
    · rw [evalLoop_of_nonpos b _ i f r hip] at h
      cases h
      exact ⟨le_refl r, by linarith⟩

/-- With a non-negative index and a base `≥ 2`, `evaluateone` succeeds. -/
theorem evaluateone_ok {i b : Int} (_hi : 0 ≤ i) (hb : 2 ≤ b) :
    ∃ r : ℚ, evaluateone i b = Except.ok (some r) := by
  obtain ⟨v, hv⟩ := evalLoop_term b hb (i.toNat + 1) i 1 0 (by omega)
  refine ⟨v, ?_⟩
  rw [evaluateone, evaluateoneFuel, if_neg (by omega), hv]

/-- A successful `evaluateone` call returns exactly `evalVal`. -/
theorem evaluateone_eq_evalVal {i b : Int}
    (h : ∃ r : ℚ, evaluateone i b = Except.ok (some r)) :
    evaluateone i b = Except.ok (some (evalVal i b)) := by
  obtain ⟨r, hr⟩ := h
  rw [evalVal, hr]

/-! ### Claims about `evaluateone` -/

/-- C1: for every integer index `i ≥ 0` and every integer base `b ≥ 2`,
`evaluateone(i, b)` returns a real value `r` with `0 ≤ r < 1`. -/
theorem evaluateone_unit_interval (i b : Int) (hi : 0 ≤ i) (hb : 2 ≤ b) :
    ∃ r : ℚ, evaluateone i b = Except.ok (some r) ∧ 0 ≤ r ∧ r < 1 := by
  obtain ⟨v, hv⟩ := evalLoop_term b hb (i.toNat + 1) i 1 0 (by omega)
  obtain ⟨h1, h2⟩ := evalLoop_range b hb (i.toNat + 1) i 1 0 v hi one_pos hv
  refine ⟨v, ?_, h1, by linarith⟩
  rw [evaluateone, evaluateoneFuel, if_neg (by omega), hv]

theorem evaluateone_unit_interval_witness :
    ∃ r : ℚ, evaluateone 3 2 = Except.ok (some r) ∧ 0 ≤ r ∧ r < 1 :=
  evaluateone_unit_interval 3 2 (by decide) (by decide)

/-- C2: `evaluateone` returns the specific known values
`evaluateone(1,2) = 1/2`, `evaluateone(2,2) = 1/4`, `evaluateone(3,2) = 3/4`,
`evaluateone(4,2) = 1/8`, `evaluateone(1,3) = 1/3`, `evaluateone(2,3) = 2/3`
and `evaluateone(3,3) = 1/9`. -/
theorem evaluateone_known_values :
    evaluateone 1 2 = Except.ok (some (1/2)) ∧
    evaluateone 2 2 = Except.ok (some (1/4)) ∧
    evaluateone 3 2 = Except.ok (some (3/4)) ∧
    evaluateone 4 2 = Except.ok (some (1/8)) ∧
    evaluateone 1 3 = Except.ok (some (1/3)) ∧
    evaluateone 2 3 = Except.ok (some (2/3)) ∧
    evaluateone 3 3 = Except.ok (some (1/9)) := by
  refine ⟨?_, ?_, ?_, ?_, ?_, ?_, ?_⟩ <;>
    norm_num [evaluateone, evaluateoneFuel, evalLoop, Int.fmod, Int.fdiv, Int.toNat]

/-- C7: for every integer `i`, `evaluateone(i, 0)` raises the
`InvalidArgument` error "Parameter b is 0. b must be greater than 0."
and returns no value. -/
theorem evaluateone_zero_base_error (i : Int) :
    evaluateone i 0 = Except.error "Parameter b is 0. b must be greater than 0." := by
  rw [evaluateone, evaluateoneFuel, if_pos rfl]

/-- C8: for every base `b ≥ 2`, `evaluateone(i, b)` returns exactly `0`
whenever `i = 0`, and also returns `0` for every negative index `i < 0`
(the loop body is never entered). -/
theorem evaluateone_zero_or_neg_index (b i : Int) (hb : 2 ≤ b)
    (hi : i = 0 ∨ i < 0) :
    evaluateone i b = Except.ok (some 0) := by
  rw [evaluateone, evaluateoneFuel, if_neg (by omega)]
  rw [evalLoop_of_nonpos b _ i 1 0 (by omega)]

theorem evaluateone_zero_or_neg_index_witness :
    evaluateone 0 2 = Except.ok (some 0) ∧
    evaluateone (-5) 2 = Except.ok (some 0) :=
  ⟨evaluateone_zero_or_neg_index 2 0 (by decide) (Or.inl rfl),
   evaluateone_zero_or_neg_index 2 (-5) (by decide) (Or.inr (by decide))⟩

/-- C9: for every integer index `i` and base `b ≥ 2`, the while loop of
`evaluateone` terminates, because `floor(i/b)` strictly decreases any
positive index toward `0`; the embedded function is total under the
precondition `b ≥ 2`. -/
theorem evaluateone_terminates (i b : Int) (hb : 2 ≤ b) :
    (∃ r : ℚ, evaluateone i b = Except.ok (some r)) ∧
    (0 < i → 0 ≤ i.fdiv b ∧ i.fdiv b < i) := by
  constructor
  · obtain ⟨v, hv⟩ := evalLoop_term b hb (i.toNat + 1) i 1 0 (by omega)
    refine ⟨v, ?_⟩
    rw [evaluateone, evaluateoneFuel, if_neg (by omega), hv]
  · intro hi
    exact fdiv_lt_of_pos hi hb

theorem evaluateone_terminates_witness :
    ∃ r : ℚ, evaluateone 7 2 = Except.ok (some r) :=
  (evaluateone_terminates 7 2 (by decide)).1

/-- C10: `evaluateone` raises an error if and only if `b = 0`; for every
negative base `b < 0` and every index `i` the call is accepted and returns
a value without error, since the guard tests equality with `0` rather than
`b ≤ 0`. -/
theorem evaluateone_error_iff_base_zero (i b : Int) :
    ((∃ msg, evaluateone i b = Except.error msg) ↔ b = 0) ∧
    (b < 0 → ∃ r : ℚ, evaluateone i b = Except.ok (some r)) := by
  constructor
  · constructor
    · rintro ⟨msg, hmsg⟩
      by_contra hb
      rw [evaluateone, evaluateoneFuel, if_neg hb] at hmsg
      exact Except.noConfusion hmsg
    · rintro rfl
      exact ⟨_, by rw [evaluateone, evaluateoneFuel, if_pos rfl]⟩
  · intro hb
    obtain ⟨v, hv⟩ := evalLoop_term_neg b hb (i.toNat + 1) i 1 0 (by omega)
    refine ⟨v, ?_⟩
    rw [evaluateone, evaluateoneFuel, if_neg (by omega), hv]

theorem evaluateone_error_iff_base_zero_witness :
    ∃ r : ℚ, evaluateone 5 (-3) = Except.ok (some r) :=
  (evaluateone_error_iff_base_zero 5 (-3)).2 (by decide)

/-! ### Claims about the constructor -/

/-- C5: constructing with `num` and `dim` (and no explicit
`indices`/`bases`) sets the index sequence to `0, 1, ..., num - 1` and the
base sequence to the first `dim` primes produced by the prime generator. -/
theorem init_defaults (num dim : Nat) :
    ∃ h : HaltonSeq, init (some num) (some dim) none none = Except.ok h ∧
      h.indices.length = num ∧
      (∀ k, k < num → h.indices.getD k 0 = (k : Int)) ∧
      h.bases = (run_gen_primes dim).map Int.ofNat := by
  refine ⟨⟨(List.range num).map Int.ofNat, (run_gen_primes dim).map Int.ofNat⟩,
    ?_, ?_, ?_, rfl⟩
  · rw [init, if_neg (by simp), if_neg (by simp), if_neg (by simp),
      if_pos (by simp)]
    rfl
  · simp
  · intro k hk
    simp [List.getD_eq_getElem?_getD, List.getElem?_range hk]

theorem init_defaults_witness :
    ∃ h : HaltonSeq, init (some 4) (some 3) none none = Except.ok h ∧
      h.indices.length = 4 ∧
      (∀ k, k < 4 → h.indices.getD k 0 = (k : Int)) ∧
      h.bases = (run_gen_primes 3).map Int.ofNat :=
  init_defaults 4 3

/-- C6: constructing with both input modes supplied simultaneously
(`num` or `dim` together with `indices` or `bases`) fails with an
`InvalidArgument` error, and constructing with none of the four arguments
supplied fails with an `InvalidArgument` error. -/
theorem init_invalid_args (num dim : Option Nat) (indices bases : Option (List Int)) :
    ((num ≠ none ∨ dim ≠ none) ∧ (indices ≠ none ∨ bases ≠ none) →
      init num dim indices bases = Except.error
        "Parameters num and dim or indices and bases cannot be supplied simultaneously.") ∧
    init none none none none =
      Except.error "Parameters num and dim or indices and bases must be supplied." := by
  constructor
  · intro hboth
    rw [init, if_pos hboth]
  · rw [init, if_neg (by simp), if_pos (by simp)]

theorem init_invalid_args_witness :
    init (some 1) none (some [1]) none = Except.error
      "Parameters num and dim or indices and bases cannot be supplied simultaneously." :=
  (init_invalid_args (some 1) none (some [1]) none).1
    ⟨Or.inl (by simp), Or.inl (by simp)⟩

/-! ### The table builder fills every cell -/

theorem snd_mem_of_mem_enumFrom {α : Type _} :
    ∀ {l : List α} {k : Nat} {pr : Nat × α}, pr ∈ l.enumFrom k → pr.2 ∈ l := by
  intro l
  induction l with
  | nil =>
    intro k pr h
    simp [List.enumFrom] at h
  | cons a t ih =>
    intro k pr h
    rw [List.enumFrom_cons] at h
    rcases List.mem_cons.mp h with h | h
    · subst h
      exact List.mem_cons_self _ _
    · exact List.mem_cons_of_mem _ (ih h)

/-- When every cell of the row succeeds, the inner loop returns the pure
fold. -/
theorem fillRow_eq (iv : Int) (i : Nat) :
    ∀ (bs : List (Nat × Int)) (acc : List (List ℚ)),
      (∀ pr ∈ bs, ∃ r : ℚ, evaluateone iv pr.2 = Except.ok (some r)) →
      fillRow iv i bs acc = Except.ok (some (fillRowF iv i bs acc)) := by
  intro bs
  induction bs with
  | nil =>
    intro acc _
    rfl
  | cons pr rest ih =>
    intro acc hok
    obtain ⟨j, bv⟩ := pr
    have h1 : evaluateone iv bv = Except.ok (some (evalVal iv bv)) :=
      evaluateone_eq_evalVal (hok _ (List.mem_cons_self _ _))
    show bindEval (evaluateone iv bv) _ = _
    rw [h1]
    show fillRow iv i rest (setCell acc i j (evalVal iv bv)) = _
    exact ih _ (fun pb hpb => hok _ (List.mem_cons_of_mem _ hpb))

/-- When every cell succeeds, the nested loops return the pure fold. -/
theorem fillTable_eq :
    ∀ (idxs : List (Nat × Int)) (bs : List (Nat × Int)) (acc : List (List ℚ)),
      (∀ pr ∈ idxs, ∀ pb ∈ bs, ∃ r : ℚ, evaluateone pr.2 pb.2 = Except.ok (some r)) →
      fillTable bs idxs acc = Except.ok (some (fillTableF bs idxs acc)) := by
  intro idxs
  induction idxs with
  | nil =>
    intro bs acc _
    rfl
  | cons pr rest ih =>
    intro bs acc hok
    obtain ⟨i, iv⟩ := pr
    show bindEval (fillRow iv i bs acc) _ = _
    rw [fillRow_eq iv i bs acc (hok _ (List.mem_cons_self _ _))]
    show fillTable bs rest (fillRowF iv i bs acc) = _
    exact ih _ _ (fun pb hpb => hok _ (List.mem_cons_of_mem _ hpb))

theorem length_fillRowF (iv : Int) (i : Nat) :
    ∀ (bs : List (Nat × Int)) (acc : List (List ℚ)),
      (fillRowF iv i bs acc).length = acc.length := by
  intro bs
  induction bs with
  | nil =>
    intro acc
    rfl
  | cons pr rest ih =>
    intro acc
    show (fillRowF iv i rest (setCell acc i pr.1 (evalVal iv pr.2))).length = _
    rw [ih, setCell, List.length_set]

/-- The inner loop leaves every row other than `i` unchanged. -/
theorem fillRowF_getD_ne (iv : Int) (i : Nat) :
    ∀ (bs : List (Nat × Int)) (acc : List (List ℚ)) (i' : Nat), i' ≠ i →
      (fillRowF iv i bs acc).getD i' [] = acc.getD i' [] := by
  intro bs
  induction bs with
  | nil =>
    intro acc i' _
    rfl
  | cons pr rest ih =>
    intro acc i' hne
    show (fillRowF iv i rest (setCell acc i pr.1 (evalVal iv pr.2))).getD i' [] = _
    rw [ih _ _ hne, setCell, List.getD_eq_getElem?_getD,
      List.getElem?_set_ne (fun h => hne h.symm), ← List.getD_eq_getElem?_getD]

/-- The inner loop rewrites row `i` by the row-level fold. -/
theorem fillRowF_getD_self (iv : Int) (i : Nat) :
    ∀ (bs : List (Nat × Int)) (acc : List (List ℚ)), i < acc.length →
      (fillRowF iv i bs acc).getD i [] = rowSetF iv bs (acc.getD i []) := by
  intro bs
  induction bs with
  | nil =>
    intro acc _
    rfl
  | cons pr rest ih =>
    intro acc hi
    show (fillRowF iv i rest (setCell acc i pr.1 (evalVal iv pr.2))).getD i [] = _
    have hlen : i < (setCell acc i pr.1 (evalVal iv pr.2)).length := by
      rw [setCell, List.length_set]
      exact hi
    rw [ih _ hlen]
    have hset : (setCell acc i pr.1 (evalVal iv pr.2)).getD i [] =
        (acc.getD i []).set pr.1 (evalVal iv pr.2) := by
      rw [setCell, List.getD_eq_getElem?_getD, List.getElem?_set_self hi]
      rfl
    rw [hset]
    rfl

/-- Setting position `k` and keeping one more element than `k` appends the
new value to the prefix. -/
theorem take_set_succ {α : Type _} :
    ∀ (k : Nat) (row : List α) (v : α), k < row.length →
      (row.set k v).take (k + 1) = row.take k ++ [v] := by
  intro k
  induction k with
  | zero =>
    intro row v hk
    cases row with
    | nil => simp at hk
    | cons x t => rfl
  | succ n ih =>
    intro row v hk
    cases row with
    | nil => simp at hk
    | cons x t =>
      show (x :: t.set n v).take (n + 2) = (x :: t.take (n + 1 - 1)) ++ [v]
      have := ih t v (by simpa using hk)
      simp [List.take_succ_cons, this]

/-- Filling a row whose tail starts at position `k` with the enumerated
bases overwrites that tail with the evaluated values. -/
theorem rowSetF_enumFrom (iv : Int) :
    ∀ (bvs : List Int) (k : Nat) (row : List ℚ), row.length = k + bvs.length →
      rowSetF iv (bvs.enumFrom k) row =
        row.take k ++ bvs.map (fun bv => evalVal iv bv) := by
  intro bvs
  induction bvs with
  | nil =>
    intro k row hlen
    show row = row.take k ++ []
    rw [List.length_nil] at hlen
    rw [List.append_nil, List.take_of_length_le (by omega)]
  | cons bv rest ih =>
    intro k row hlen
    rw [List.length_cons] at hlen
    rw [List.enumFrom_cons]
    show rowSetF iv (rest.enumFrom (k + 1)) (row.set k (evalVal iv bv)) = _
    rw [ih (k + 1) _ (by rw [List.length_set]; omega)]
    rw [take_set_succ k row _ (by omega)]
    simp [List.append_assoc]

/-- Main description of the pure table fold: rows before `k` are kept,
rows from `k` on are replaced with the evaluated values of the
corresponding index. -/
theorem fillTableF_spec (bvs : List Int) :
    ∀ (ivs : List Int) (k : Nat) (acc : List (List ℚ)),
      k + ivs.length ≤ acc.length →
      (∀ i, k ≤ i → i < acc.length → (acc.getD i []).length = bvs.length) →
      (fillTableF bvs.enum (ivs.enumFrom k) acc).length = acc.length ∧
      (∀ i, i < k →
        (fillTableF bvs.enum (ivs.enumFrom k) acc).getD i [] = acc.getD i []) ∧
      (∀ d, d < ivs.length →
        (fillTableF bvs.enum (ivs.enumFrom k) acc).getD (k + d) [] =
          bvs.map (fun bv => evalVal (ivs.getD d 0) bv)) := by
  intro ivs
  induction ivs with
  | nil =>
    intro k acc _ _
    refine ⟨rfl, fun i _ => rfl, fun d hd => by simp at hd⟩
  | cons iv rest ih =>
    intro k acc hle hrows
    rw [List.enumFrom_cons]
    have hk : k < acc.length := by
      simp at hle
      omega
    have hstep : fillTableF bvs.enum ((k, iv) :: rest.enumFrom (k + 1)) acc =
        fillTableF bvs.enum (rest.enumFrom (k + 1)) (fillRowF iv k bvs.enum acc) := rfl
    have hlen' : (fillRowF iv k bvs.enum acc).length = acc.length :=
      length_fillRowF iv k bvs.enum acc
    have hrows' : ∀ i, k + 1 ≤ i → i < (fillRowF iv k bvs.enum acc).length →
        ((fillRowF iv k bvs.enum acc).getD i []).length = bvs.length := by
      intro i hi hilen
      rw [fillRowF_getD_ne iv k bvs.enum acc i (by omega)]
      exact hrows i (by omega) (by omega)
    have hle' : (k + 1) + rest.length ≤ (fillRowF iv k bvs.enum acc).length := by
      rw [hlen']
      simp at hle
      omega
    obtain ⟨ihlen, ihlow, ihdata⟩ := ih (k + 1) _ hle' hrows'
    rw [hstep]
    refine ⟨by rw [ihlen, hlen'], ?_, ?_⟩
    · intro i hi
      rw [ihlow i (by omega), fillRowF_getD_ne iv k bvs.enum acc i (by omega)]
    · intro d hd
      cases d with
      | zero =>
        show (fillTableF bvs.enum (rest.enumFrom (k + 1)) (fillRowF iv k bvs.enum acc)).getD
            k [] = List.map (fun bv => evalVal iv bv) bvs
        rw [ihlow k (by omega), fillRowF_getD_self iv k bvs.enum acc hk]
        have hrowlen : (acc.getD k []).length = 0 + bvs.length := by
          rw [Nat.zero_add]
          exact hrows k (le_refl k) hk
        have := rowSetF_enumFrom iv bvs 0 (acc.getD k []) hrowlen
        rw [List.enum, this]
        rfl
      | succ d' =>
        show (fillTableF bvs.enum (rest.enumFrom (k + 1)) (fillRowF iv k bvs.enum acc)).getD
            (k + (d' + 1)) [] = List.map (fun bv => evalVal (rest.getD d' 0) bv) bvs
        have harith : k + (d' + 1) = (k + 1) + d' := by omega
        rw [harith, ihdata d' (by simp at hd; omega)]

/-- C4: for every object with index sequence of length `m` and base
sequence of length `n`, `evaluate()` returns an `m × n` table whose cell
`(i, j)` is `evaluateone(indices[i], bases[j])` — stated for runs in which
every cell evaluation returns a value (otherwise the source call raises or
diverges and returns no table at all). -/
theorem evaluate_table (h : HaltonSeq)
    (hok : ∀ iv ∈ h.indices, ∀ bv ∈ h.bases,
      ∃ r : ℚ, evaluateone iv bv = Except.ok (some r)) :
    ∃ t : List (List ℚ), evaluate h = Except.ok (some t) ∧
      t.length = h.indices.length ∧
      (∀ row ∈ t, row.length = h.bases.length) ∧
      (∀ i j, i < h.indices.length → j < h.bases.length →
        evaluateone (h.indices.getD i 0) (h.bases.getD j 0) =
          Except.ok (some ((t.getD i []).getD j 0))) := by
  have hpairs : ∀ pr ∈ h.indices.enum, ∀ pb ∈ h.bases.enum,
      ∃ r : ℚ, evaluateone pr.2 pb.2 = Except.ok (some r) := by
    intro pr hpr pb hpb
    exact hok _ (snd_mem_of_mem_enumFrom hpr) _ (snd_mem_of_mem_enumFrom hpb)
  have hinitrows : ∀ i, 0 ≤ i →
      i < (List.replicate h.indices.length (List.replicate h.bases.length (0 : ℚ))).length →
      ((List.replicate h.indices.length
        (List.replicate h.bases.length (0 : ℚ))).getD i []).length = h.bases.length := by
    intro i _ hi
    rw [List.length_replicate] at hi
    rw [List.getD_eq_getElem?_getD, List.getElem?_replicate_of_lt hi]
    exact List.length_replicate _ _
  obtain ⟨hlen, _, hdata⟩ := fillTableF_spec h.bases h.indices 0
    (List.replicate h.indices.length (List.replicate h.bases.length (0 : ℚ)))
    (by rw [List.length_replicate]; omega) hinitrows
  have henum : h.indices.enum = h.indices.enumFrom 0 := rfl
  rw [← henum] at hlen hdata
  have hdata' : ∀ d, d < h.indices.length →
      (fillTableF h.bases.enum h.indices.enum
          (List.replicate h.indices.length (List.replicate h.bases.length (0 : ℚ)))).getD
        d [] = h.bases.map (fun bv => evalVal (h.indices.getD d 0) bv) := by
    intro d hd
    have := hdata d hd
    rw [Nat.zero_add] at this
    exact this
  have hlen' : (fillTableF h.bases.enum h.indices.enum
      (List.replicate h.indices.length (List.replicate h.bases.length (0 : ℚ)))).length =
      h.indices.length := by
    rw [hlen, List.length_replicate]
  refine ⟨fillTableF h.bases.enum h.indices.enum
    (List.replicate h.indices.length (List.replicate h.bases.length (0 : ℚ))),
    ?_, hlen', ?_, ?_⟩
  · rw [evaluate, fillTable_eq h.indices.enum h.bases.enum _ hpairs]
  · intro row hrow
    obtain ⟨i, hi, hrowi⟩ := List.mem_iff_getElem.mp hrow
    have hil : i < h.indices.length := by
      rw [hlen'] at hi
      exact hi
    have hgd : (fillTableF h.bases.enum h.indices.enum
        (List.replicate h.indices.length (List.replicate h.bases.length (0 : ℚ)))).getD
        i [] = row := by
      rw [List.getD_eq_getElem?_getD, List.getElem?_eq_getElem hi, hrowi]
      rfl
    rw [← hgd, hdata' i hil, List.length_map]
  · intro i j hi hj
    rw [hdata' i hi]
    have hbj : h.bases[j]? = some (h.bases.getD j 0) := by
      rw [List.getElem?_eq_getElem hj, List.getD_eq_getElem?_getD,
        List.getElem?_eq_getElem hj]
      rfl
    have hcell : ((h.bases.map (fun bv => evalVal (h.indices.getD i 0) bv)).getD j 0) =
        evalVal (h.indices.getD i 0) (h.bases.getD j 0) := by
      rw [List.getD_eq_getElem?_getD, List.getElem?_map, hbj]
      rfl
    rw [hcell]
    apply evaluateone_eq_evalVal
    have himem : h.indices.getD i 0 ∈ h.indices := by
      rw [List.getD_eq_getElem?_getD, List.getElem?_eq_getElem hi]
      exact List.getElem_mem hi
    have hbmem : h.bases.getD j 0 ∈ h.bases := by
      rw [List.getD_eq_getElem?_getD, List.getElem?_eq_getElem hj]
      exact List.getElem_mem hj
    exact hok _ himem _ hbmem

theorem evaluate_table_witness :
    ∃ t : List (List ℚ),
      evaluate ⟨[1, 2], [2, 3]⟩ = Except.ok (some t) ∧
      t.length = ([1, 2] : List Int).length ∧
      (∀ row ∈ t, row.length = ([2, 3] : List Int).length) ∧
      (∀ i j, i < ([1, 2] : List Int).length → j < ([2, 3] : List Int).length →
        evaluateone (([1, 2] : List Int).getD i 0) (([2, 3] : List Int).getD j 0) =
          Except.ok (some ((t.getD i []).getD j 0))) := by
  apply evaluate_table ⟨[1, 2], [2, 3]⟩
  intro iv hiv bv hbv
  apply evaluateone_ok
  · fin_cases hiv <;> decide
  · fin_cases hbv <;> decide

/-! ### Arithmetic of the sieve keys -/

theorem nextMul_ge {p : Nat} (q : Nat) (hp : 0 < p) : q ≤ nextMul p q := by
  rw [nextMul]
  have h1 := Nat.div_add_mod (q + p - 1) p
  have h2 : (q + p - 1) % p < p := Nat.mod_lt _ hp
  omega

theorem dvd_nextMul (p q : Nat) : p ∣ nextMul p q := ⟨(q + p - 1) / p, rfl⟩

theorem nextMul_min {p m : Nat} (q : Nat) (hp : 0 < p) (hd : p ∣ m) (hq : q ≤ m) :
    nextMul p q ≤ m := by
  obtain ⟨c, rfl⟩ := hd
  rw [nextMul]
  have h1 : q + p - 1 ≤ p * c + p - 1 := by omega
  have h2 : (q + p - 1) / p ≤ (p * c + p - 1) / p := Nat.div_le_div_right h1
  have h3 : (p * c + p - 1) / p = c := by
    have he : p * c + p - 1 = p * c + (p - 1) := by omega
    rw [he, Nat.mul_add_div hp, Nat.div_eq_of_lt (by omega)]
    omega
  exact Nat.mul_le_mul_left p (h3 ▸ h2)

theorem nextMul_eq_of_dvd {p q : Nat} (hp : 0 < p) (hd : p ∣ q) : nextMul p q = q :=
  le_antisymm (nextMul_min q hp hd (le_refl q)) (nextMul_ge q hp)

theorem sieveKey_ge {p : Nat} (q : Nat) (hp : 0 < p) : q ≤ sieveKey p q :=
  le_trans (nextMul_ge q hp) (le_max_right _ _)

theorem dvd_sieveKey (p q : Nat) : p ∣ sieveKey p q := by
  rw [sieveKey]
  rcases Nat.le_total (p * p) (nextMul p q) with h | h
  · rw [Nat.max_eq_right h]
    exact dvd_nextMul p q
  · rw [Nat.max_eq_left h]
    exact ⟨p, rfl⟩

theorem sieveKey_eq_iff {p q : Nat} (hp : 0 < p) :
    sieveKey p q = q ↔ p ∣ q ∧ p * p ≤ q := by
  constructor
  · intro h
    have hub : nextMul p q ≤ sieveKey p q := le_max_right _ _
    have hlb : q ≤ nextMul p q := nextMul_ge q hp
    have h2 : nextMul p q = q := by omega
    have h4 : p * p ≤ q := by
      have := le_max_left (p * p) (nextMul p q)
      rw [← sieveKey, h] at this
      exact this
    exact ⟨h2 ▸ dvd_nextMul p q, h4⟩
  · rintro ⟨hd, hsq⟩
    rw [sieveKey, nextMul_eq_of_dvd hp hd, Nat.max_eq_right hsq]

theorem sieveKey_succ_of_ne {p q : Nat} (hp : 0 < p) (h : sieveKey p q ≠ q) :
    sieveKey p (q + 1) = sieveKey p q := by
  have hge : q + 1 ≤ sieveKey p q := by
    have := sieveKey_ge q hp
    omega
  have hM1 : nextMul p q ≤ nextMul p (q + 1) :=
    nextMul_min q hp (dvd_nextMul p (q + 1))
      (le_trans (Nat.le_succ q) (nextMul_ge (q + 1) hp))
  have hM2 : nextMul p (q + 1) ≤ sieveKey p q :=
    nextMul_min (q + 1) hp (dvd_sieveKey p q) hge
  simp only [sieveKey] at hM2 ⊢
  omega

theorem sieveKey_succ_of_eq {p q : Nat} (hp : 0 < p) (h : sieveKey p q = q) :
    sieveKey p (q + 1) = q + p := by
  obtain ⟨hd, hsq⟩ := (sieveKey_eq_iff hp).mp h
  have hub : nextMul p (q + 1) ≤ q + p :=
    nextMul_min (q + 1) hp (Nat.dvd_add hd (dvd_refl p)) (by omega)
  have hlb : q + 1 ≤ nextMul p (q + 1) := nextMul_ge (q + 1) hp
  have hdiff : p ∣ nextMul p (q + 1) - q := Nat.dvd_sub' (dvd_nextMul p (q + 1)) hd
  have hple : p ≤ nextMul p (q + 1) - q := Nat.le_of_dvd (by omega) hdiff
  have hM : nextMul p (q + 1) = q + p := by omega
  rw [sieveKey, hM, Nat.max_eq_right (by omega)]

theorem sieveKey_self {q : Nat} (hq : 2 ≤ q) : sieveKey q (q + 1) = q * q := by
  have hub : nextMul q (q + 1) ≤ q * q :=
    nextMul_min (q + 1) (by omega) ⟨q, rfl⟩ (by nlinarith)
  rw [sieveKey, Nat.max_eq_left hub]

/-- A number `q ≥ 2` is prime or has a prime factor `p` with `p * p ≤ q`. -/
theorem prime_or_small_factor {q : Nat} (hq : 2 ≤ q) :
    q.Prime ∨ ∃ p, p.Prime ∧ p ∣ q ∧ p * p ≤ q ∧ p < q := by
  by_cases hpr : q.Prime
  · exact Or.inl hpr
  · right
    refine ⟨q.minFac, Nat.minFac_prime (by omega), Nat.minFac_dvd q, ?_, ?_⟩
    · have := Nat.minFac_sq_le_self (by omega) hpr
      rw [pow_two] at this
      exact this
    · have hle : q.minFac ≤ q := Nat.minFac_le (by omega)
      rcases Nat.lt_or_ge q.minFac q with h | h
      · exact h
      · exact absurd (Nat.prime_def_minFac.mpr ⟨hq, le_antisymm hle h⟩) hpr

/-! ### The sieve invariant is preserved -/

/-- Advancing all witnesses appends each `p` to the list at key `p + q`. -/
theorem foldl_dictAppend (q : Nat) :
    ∀ (ps : List Nat) (E : Nat → List Nat) (m : Nat),
      (ps.foldl (fun E p => dictAppend E (p + q) p) E) m =
        E m ++ ps.filter (fun p => decide (p + q = m)) := by
  intro ps
  induction ps with
  | nil =>
    intro E m
    simp
  | cons p rest ih =>
    intro E m
    show (rest.foldl (fun E p => dictAppend E (p + q) p) (dictAppend E (p + q) p)) m = _
    rw [ih]
    by_cases hm : p + q = m
    · subst hm
      simp [dictAppend, List.filter_cons]
    · have hm' : ¬(m = p + q) := fun hh => hm hh.symm
      simp [dictAppend, hm, hm', List.filter_cons]

/-- The empty dict satisfies the invariant at the start `q = 2`. -/
theorem sieveInv_init : sieveInv 2 (fun _ => []) := by
  constructor
  · intro m
    exact List.nodup_nil
  · intro p m
    constructor
    · intro h
      exact absurd h (List.not_mem_nil p)
    · rintro ⟨hp, hlt, _⟩
      exact absurd hp.two_le (by omega)

/-- If `q` is not a key of the dict, then `q` is prime and marking `q * q`
restores the invariant for `q + 1`. -/
theorem sieveStep_prime {q : Nat} {D : Nat → List Nat} (hq : 2 ≤ q)
    (hInv : sieveInv q D) (hD : D q = []) :
    q.Prime ∧ sieveInv (q + 1) (dictSet D (q * q) [q]) := by
  obtain ⟨hnd, hmem⟩ := hInv
  have hnokey : ∀ p : Nat, ¬(p.Prime ∧ p < q ∧ sieveKey p q = q) := by
    rintro p ⟨hp, hlt, hkey⟩
    have hin : p ∈ D q := (hmem p q).mpr ⟨hp, hlt, hkey.symm⟩
    rw [hD] at hin
    exact absurd hin (List.not_mem_nil p)
  have hqprime : q.Prime := by
    rcases prime_or_small_factor hq with h | ⟨p, hp, hdvd, hsq, hlt⟩
    · exact h
    · exact absurd ⟨hp, hlt, (sieveKey_eq_iff hp.pos).mpr ⟨hdvd, hsq⟩⟩ (hnokey p)
  refine ⟨hqprime, ?_, ?_⟩
  · intro m
    simp only [dictSet]
    by_cases hm : m = q * q
    · rw [if_pos hm]
      exact List.nodup_singleton q
    · rw [if_neg hm]
      exact hnd m
  · intro p m
    simp only [dictSet]
    by_cases hm : m = q * q
    · rw [if_pos hm]
      constructor
      · intro hmem'
        have hpq : p = q := List.mem_singleton.mp hmem'
        subst hpq
        exact ⟨hqprime, by omega, by rw [hm, sieveKey_self hq]⟩
      · rintro ⟨hp, hlt, hkey⟩
        have hdvd : p ∣ q * q := by
          have he : q * q = sieveKey p (q + 1) := hm ▸ hkey
          rw [he]
          exact dvd_sieveKey p (q + 1)
        have hpq : p = q := by
          rcases (Nat.Prime.dvd_mul hp).mp hdvd with h | h
          · exact (Nat.prime_dvd_prime_iff_eq hp hqprime).mp h
          · exact (Nat.prime_dvd_prime_iff_eq hp hqprime).mp h
        subst hpq
        exact List.mem_singleton.mpr rfl
    · rw [if_neg hm, hmem p m]
      constructor
      · rintro ⟨hp, hlt, hkey⟩
        refine ⟨hp, by omega, ?_⟩
        have hne : sieveKey p q ≠ q := fun hc => hnokey p ⟨hp, hlt, hc⟩
        rw [sieveKey_succ_of_ne hp.pos hne]
        exact hkey
      · rintro ⟨hp, hlt, hkey⟩
        have hpq : p ≠ q := by
          rintro rfl
          rw [sieveKey_self hq] at hkey
          exact hm hkey
        have hlt' : p < q := by omega
        have hne : sieveKey p q ≠ q := fun hc => hnokey p ⟨hp, hlt', hc⟩
        rw [sieveKey_succ_of_ne hp.pos hne] at hkey
        exact ⟨hp, hlt', hkey⟩

/-- If `q` is a key of the dict, then `q` is composite and advancing the
witnesses of `q` restores the invariant for `q + 1`. -/
theorem sieveStep_composite {q : Nat} {D : Nat → List Nat} (_hq : 2 ≤ q)
    (hInv : sieveInv q D) (hD : D q ≠ []) :
    ¬q.Prime ∧
    sieveInv (q + 1) (dictDel ((D q).foldl (fun E p => dictAppend E (p + q) p) D) q) := by
  obtain ⟨hnd, hmem⟩ := hInv
  obtain ⟨p0, hp0⟩ := List.exists_mem_of_ne_nil _ hD
  obtain ⟨hp0p, hp0lt, hp0key⟩ := (hmem p0 q).mp hp0
  have hq_not_prime : ¬q.Prime := by
    intro hqp
    obtain ⟨hdvd, hsq⟩ := (sieveKey_eq_iff hp0p.pos).mp hp0key.symm
    rcases Nat.Prime.eq_one_or_self_of_dvd hqp p0 hdvd with h | h
    · exact absurd h (Nat.Prime.one_lt hp0p).ne'
    · omega
  refine ⟨hq_not_prime, ?_, ?_⟩
  · intro m
    simp only [dictDel]
    by_cases hm : m = q
    · rw [if_pos hm]
      exact List.nodup_nil
    · rw [if_neg hm, foldl_dictAppend q (D q) D m]
      refine List.Nodup.append (hnd m) (List.Nodup.filter _ (hnd q)) ?_
      intro x hx1 hx2
      obtain ⟨hx2', _⟩ := List.mem_filter.mp hx2
      have e1 := (hmem x m).mp hx1
      have e2 := (hmem x q).mp hx2'
      exact hm (e1.2.2.trans e2.2.2.symm)
  · intro p m
    simp only [dictDel]
    by_cases hm : m = q
    · rw [if_pos hm]
      constructor
      · intro h
        exact absurd h (List.not_mem_nil p)
      · rintro ⟨hp, _, hkey⟩
        have hge := sieveKey_ge (q + 1) hp.pos
        omega
    · rw [if_neg hm, foldl_dictAppend q (D q) D m]
      rw [List.mem_append, List.mem_filter]
      constructor
      · rintro (h | ⟨hDq, heq⟩)
        · obtain ⟨hp, hlt, hkey⟩ := (hmem p m).mp h
          refine ⟨hp, by omega, ?_⟩
          have hne : sieveKey p q ≠ q := fun hc => hm (hkey.trans hc)
          rw [sieveKey_succ_of_ne hp.pos hne]
          exact hkey
        · obtain ⟨hp, hlt, hkey⟩ := (hmem p q).mp hDq
          have heq' : p + q = m := of_decide_eq_true heq
          refine ⟨hp, by omega, ?_⟩
          rw [sieveKey_succ_of_eq hp.pos hkey.symm]
          omega
      · rintro ⟨hp, hlt, hkey⟩
        have hpq : p ≠ q := fun hc => hq_not_prime (hc ▸ hp)
        have hlt' : p < q := by omega
        by_cases hkq : sieveKey p q = q
        · right
          refine ⟨(hmem p q).mpr ⟨hp, hlt', hkq.symm⟩, ?_⟩
          rw [sieveKey_succ_of_eq hp.pos hkq] at hkey
          exact decide_eq_true (by omega)
        · left
          rw [sieveKey_succ_of_ne hp.pos hkq] at hkey
          exact (hmem p m).mpr ⟨hp, hlt', hkey⟩

/-! ### The generator yields exactly the primes, in order -/

theorem sieveYields_spec :
    ∀ (steps q : Nat) (D : Nat → List Nat), 2 ≤ q → sieveInv q D →
      sieveYields steps D q =
        (List.range' q steps).filter (fun k => decide (Nat.Prime k)) := by
  intro steps
  induction steps with
  | zero =>
    intro q D _ _
    rfl
  | succ n ih =>
    intro q D hq hInv
    by_cases hD : D q = []
    · obtain ⟨hqp, hInv'⟩ := sieveStep_prime hq hInv hD
      have hstep : sieveYields (n + 1) D q =
          q :: sieveYields n (dictSet D (q * q) [q]) (q + 1) := by
        simp only [sieveYields, sieveStep, if_pos hD]
      rw [hstep, ih (q + 1) _ (by omega) hInv', List.range'_succ, List.filter_cons]
      simp [hqp]
    · obtain ⟨hqnp, hInv'⟩ := sieveStep_composite hq hInv hD
      have hstep : sieveYields (n + 1) D q = sieveYields n
          (dictDel ((D q).foldl (fun E p => dictAppend E (p + q) p) D) q) (q + 1) := by
        simp only [sieveYields, sieveStep, if_neg hD]
      rw [hstep, ih (q + 1) _ (by omega) hInv', List.range'_succ, List.filter_cons]
      simp [hqnp]

/-- The yield stream of `gen_primes` is the ascending list of primes. -/
theorem gen_primes_eq (steps : Nat) :
    gen_primes steps = (List.range' 2 steps).filter (fun k => decide (Nat.Prime k)) :=
  sieveYields_spec steps 2 (fun _ => []) (le_refl 2) sieveInv_init

/-- Bertrand's postulate gives at least `n` primes below `2 ^ (n + 1) + 1`. -/
theorem primes_lower_bound :
    ∀ n : Nat, n ≤ ((List.range' 2 (2 ^ (n + 1) - 1)).filter
      (fun k => decide (Nat.Prime k))).length := by
  intro n
  induction n with
  | zero => exact Nat.zero_le _
  | succ m ih =>
    have hone : 1 ≤ (2:Nat) ^ (m + 1) := Nat.one_le_two_pow
    have hsplit : (2:Nat) ^ (m + 1 + 1) - 1 = 2 ^ (m + 1) + (2 ^ (m + 1) - 1) := by
      have hpow : (2:Nat) ^ (m + 1 + 1) = 2 ^ (m + 1) * 2 := pow_succ 2 (m + 1)
      omega
    rw [hsplit, ← List.range'_append_1 2 (2 ^ (m + 1) - 1) (2 ^ (m + 1)),
      List.filter_append, List.length_append]
    obtain ⟨p, hp, hgt, hle⟩ :=
      Nat.exists_prime_lt_and_le_two_mul (2 ^ (m + 1)) (by omega)
    have hmem : p ∈ List.range' (2 + (2 ^ (m + 1) - 1)) (2 ^ (m + 1)) := by
      rw [List.mem_range']
      exact ⟨p - (2 + (2 ^ (m + 1) - 1)), by omega, by omega⟩
    have hmem2 : p ∈ (List.range' (2 + (2 ^ (m + 1) - 1)) (2 ^ (m + 1))).filter
        (fun k => decide (Nat.Prime k)) :=
      List.mem_filter.mpr ⟨hmem, decide_eq_true hp⟩
    have hpos := List.length_pos.mpr (List.ne_nil_of_mem hmem2)
    omega

/-- `2 ^ (n + 1)` generator passes produce at least `n` primes. -/
theorem gen_primes_count (n : Nat) : n ≤ (gen_primes (2 ^ (n + 1))).length := by
  rw [gen_primes_eq]
  have hone : 1 ≤ (2:Nat) ^ (n + 1) := Nat.one_le_two_pow
  have hsplit : (2:Nat) ^ (n + 1) = 1 + (2 ^ (n + 1) - 1) := by omega
  rw [hsplit, ← List.range'_append_1 2 (2 ^ (n + 1) - 1) 1,
    List.filter_append, List.length_append]
  have := primes_lower_bound n
  omega

/-- `run_gen_primes` is the first `n` entries of the ascending prime list:
the dedup is inert (the yields are distinct) and the sort is inert (the
yields are already ascending). -/
theorem run_gen_primes_eq (n : Nat) :
    run_gen_primes n =
      ((List.range' 2 (2 ^ (n + 1))).filter (fun k => decide (Nat.Prime k))).take n := by
  rw [run_gen_primes, gen_primes_eq]
  have hsub : List.Sublist (((List.range' 2 (2 ^ (n + 1))).filter
      (fun k => decide (Nat.Prime k))).take n) (List.range' 2 (2 ^ (n + 1))) :=
    List.Sublist.trans (List.take_sublist _ _) (List.filter_sublist _)
  have hpw : List.Pairwise (· < ·) (((List.range' 2 (2 ^ (n + 1))).filter
      (fun k => decide (Nat.Prime k))).take n) :=
    List.Pairwise.sublist hsub (List.pairwise_lt_range' 2 (2 ^ (n + 1)))
  have hnd := List.Nodup.sublist hsub (List.nodup_range' 2 (2 ^ (n + 1)))
  rw [List.dedup_eq_self.mpr hnd]
  exact List.mergeSort_of_sorted (hpw.imp (fun h => decide_eq_true (Nat.le_of_lt h)))

/-- In a strictly ascending list, anything below a member of a prefix is
itself in the prefix (when it is in the list at all). -/
theorem mem_take_of_le_of_sorted :
    ∀ (l : List Nat) (n : Nat) (x y : Nat), List.Pairwise (· < ·) l →
      x ∈ l.take n → y ∈ l → y ≤ x → y ∈ l.take n := by
  intro l
  induction l with
  | nil =>
    intro n x y _ hx _ _
    simp at hx
  | cons a t ih =>
    intro n x y hpw hx hy hyx
    cases n with
    | zero => simp at hx
    | succ n' =>
      rw [List.take_succ_cons] at hx ⊢
      rcases List.mem_cons.mp hy with rfl | hyt
      · exact List.mem_cons_self _ _
      · have ha_lt : a < y := (List.pairwise_cons.mp hpw).1 y hyt
        rcases List.mem_cons.mp hx with rfl | hxt
        · exact absurd (lt_of_lt_of_le ha_lt hyx) (lt_irrefl x)
        · exact List.mem_cons_of_mem _
            (ih n' x y (List.pairwise_cons.mp hpw).2 hxt hyt hyx)

/-- C3: for every `n ≥ 0`, `run_gen_primes(n)` returns exactly the first
`n` prime numbers, sorted strictly increasing and starting at `2`:
it has `n` entries, is strictly ascending, contains only primes, contains
every prime below any of its members, and in particular
`run_gen_primes(5) = [2, 3, 5, 7, 11]`. -/
theorem run_gen_primes_first_primes (n : Nat) :
    (run_gen_primes n).length = n ∧
    List.Pairwise (· < ·) (run_gen_primes n) ∧
    (∀ x ∈ run_gen_primes n, Nat.Prime x) ∧
    (∀ p x, Nat.Prime p → x ∈ run_gen_primes n → p ≤ x → p ∈ run_gen_primes n) ∧
    run_gen_primes 5 = [2, 3, 5, 7, 11] := by
  have hsub : List.Sublist (((List.range' 2 (2 ^ (n + 1))).filter
      (fun k => decide (Nat.Prime k))).take n) (List.range' 2 (2 ^ (n + 1))) :=
    List.Sublist.trans (List.take_sublist _ _) (List.filter_sublist _)
  have hpw0 : List.Pairwise (· < ·) ((List.range' 2 (2 ^ (n + 1))).filter
      (fun k => decide (Nat.Prime k))) :=
    List.Pairwise.sublist (List.filter_sublist _) (List.pairwise_lt_range' 2 (2 ^ (n + 1)))
  refine ⟨?_, ?_, ?_, ?_, ?_⟩
  · rw [run_gen_primes_eq n, List.length_take]
    have h1 := gen_primes_count n
    rw [gen_primes_eq] at h1
    omega
  · rw [run_gen_primes_eq n]
    exact List.Pairwise.sublist hsub (List.pairwise_lt_range' 2 (2 ^ (n + 1)))
  · intro x hx
    rw [run_gen_primes_eq n] at hx
    have hx' := List.mem_of_mem_take hx
    exact of_decide_eq_true (List.mem_filter.mp hx').2
  · intro p x hp hx hpx
    rw [run_gen_primes_eq n] at hx ⊢
    have hx' := List.mem_of_mem_take hx
    obtain ⟨hxr, _⟩ := List.mem_filter.mp hx'
    have hpr : p ∈ List.range' 2 (2 ^ (n + 1)) := by
      rw [List.mem_range'] at hxr ⊢
      obtain ⟨i, hi, hxi⟩ := hxr
      have h2 := hp.two_le
      exact ⟨p - 2, by omega, by omega⟩
    have hpf : p ∈ (List.range' 2 (2 ^ (n + 1))).filter (fun k => decide (Nat.Prime k)) :=
      List.mem_filter.mpr ⟨hpr, decide_eq_true hp⟩
    exact mem_take_of_le_of_sorted _ n x p hpw0 hx hpf hpx
  · have hd : (((gen_primes (2 ^ (5 + 1))).take 5).dedup) = [2, 3, 5, 7, 11] := by
      decide
    rw [run_gen_primes, hd]
    exact List.mergeSort_of_sorted (by decide)

end Halton
